import Mathlib

/-!
Shallow embedding of `src/cpp/statistics/multinomial.h` (class `utexas::Multinomial`),
together with theorems checking the natural-language specification against it.

Modelling conventions:
* C++ `double` values are modelled as exact rationals extended with the IEEE special
  values `+inf`, `-inf` and `NaN` (`RVal` below).  Rounding and overflow of finite
  arithmetic are not modelled (finite `+`, `*`, `/` are exact).
* The transcendental functions are abstracted: `logPos : ℚ → ℚ` stands for the natural
  log on positive arguments and `lnGamma : ℚ → ℚ` for the `ln_gamma` library routine;
  every theorem below is proved for arbitrary such functions.
* numpy semantics are embedded faithfully: `numpy.log 0 = -inf`, `numpy.log x = NaN`
  for `x < 0`, `numpy.log NaN = NaN`; `numpy.nan_to_num` maps `NaN` to `0`, `+inf` to
  `DBL_MAX` and `-inf` to `-DBL_MAX`; IEEE division `x / 0` is `NaN` for `x = 0` and
  `±inf` otherwise.
* `unsigned long` is modelled as `ℕ`; the C++ conversion of a `double` to
  `unsigned long` truncates the fractional part (behaviour for negative values is
  undefined in C++; the model clamps at zero, and theorems about precise values
  restrict to the non-negative samples the claims are about).
* Methods that can signal (the `UTEXAS_ASSERT` in `log_likelihood`) return `Except`.
* The class members `_beta` and `_log_beta` are the state; `...St` variants of the
  operations thread that state explicitly.  No statement of any method body in the
  source assigns to a member, so each embedded operation returns the state it was
  given.
-/

/-- Error kinds named by the specification. -/
inductive MError where
  | InvalidParameterError
  | InvalidArgumentError
  | DimensionMismatchError
  | InternalConsistencyError
deriving DecidableEq, Repr

/-- A C++ `double`: an exact rational, or one of the IEEE special values. -/
inductive RVal where
  | fin (q : ℚ)
  | pinf
  | ninf
  | nan
deriving DecidableEq, Repr

namespace RVal

/-- IEEE-flavoured addition (finite addition is exact; no overflow modelled). -/
def add : RVal → RVal → RVal
  | nan, _ => nan
  | _, nan => nan
  | fin a, fin b => fin (a + b)
  | fin _, pinf => pinf
  | fin _, ninf => ninf
  | pinf, fin _ => pinf
  | ninf, fin _ => ninf
  | pinf, pinf => pinf
  | ninf, ninf => ninf
  | pinf, ninf => nan
  | ninf, pinf => nan

/-- IEEE-flavoured negation. -/
def neg : RVal → RVal
  | nan => nan
  | fin a => fin (-a)
  | pinf => ninf
  | ninf => pinf

/-- IEEE-flavoured multiplication (`0 * ±inf = NaN`; finite products exact). -/
def mul : RVal → RVal → RVal
  | nan, _ => nan
  | _, nan => nan
  | fin a, fin b => fin (a * b)
  | fin a, pinf => if a = 0 then nan else if 0 < a then pinf else ninf
  | fin a, ninf => if a = 0 then nan else if 0 < a then ninf else pinf
  | pinf, fin a => if a = 0 then nan else if 0 < a then pinf else ninf
  | ninf, fin a => if a = 0 then nan else if 0 < a then ninf else pinf
  | pinf, pinf => pinf
  | ninf, ninf => pinf
  | pinf, ninf => ninf
  | ninf, pinf => ninf

end RVal

/-- Largest finite double, `(2 - 2^-52) * 2^1023`, as an exact rational. -/
def DBL_MAX : ℚ := 2 ^ 1024 - 2 ^ 971

/-- IEEE division of a finite double by a finite double (`x / 0` is `NaN` when
`x = 0` and `±inf` otherwise). -/
def divD (x s : ℚ) : RVal :=
  if s = 0 then
    if x = 0 then RVal.nan else if 0 < x then RVal.pinf else RVal.ninf
  else
    RVal.fin (x / s)

/-- `numpy.log` on a double: `log 0 = -inf`, `log x = NaN` for `x < 0`,
`NaN` propagates; `logPos` abstracts the natural log on positive arguments. -/
def npLog (logPos : ℚ → ℚ) : RVal → RVal
  | RVal.fin x => if 0 < x then RVal.fin (logPos x) else if x = 0 then RVal.ninf else RVal.nan
  | RVal.pinf => RVal.pinf
  | RVal.ninf => RVal.nan
  | RVal.nan => RVal.nan

/-- The finite double `numpy.nan_to_num` produces: `NaN ↦ 0`, `+inf ↦ DBL_MAX`,
`-inf ↦ -DBL_MAX`, finite values unchanged. -/
def nan_to_numQ : RVal → ℚ
  | RVal.fin x => x
  | RVal.nan => 0
  | RVal.pinf => DBL_MAX
  | RVal.ninf => -DBL_MAX

/-- `numpy.nan_to_num`: always a finite value. -/
def nan_to_num (v : RVal) : RVal := RVal.fin (nan_to_numQ v)

/-- The `Multinomial` class state: the members `_beta` and `_log_beta`. -/
structure Multinomial where
  beta : List RVal
  log_beta : List RVal
deriving DecidableEq, Repr

/-- The constructor `Multinomial(Beta beta)`: `_beta = beta / numpy.sum(beta)`,
`_log_beta = numpy.nan_to_num(numpy.log(_beta))`.  There is no validation in the
source. -/
def construct (logPos : ℚ → ℚ) (raw : List ℚ) : Multinomial :=
  let s := raw.sum
  let b := raw.map (fun x => divD x s)
  { beta := b, log_beta := b.map (fun v => nan_to_num (npLog logPos v)) }

/-- The constructor as a fallible call: the source constructor body contains no
signalling statement, so every input produces a distribution. -/
def constructE (logPos : ℚ → ℚ) (raw : List ℚ) : Except MError Multinomial :=
  Except.ok (construct logPos raw)

/-- One iteration step of the `unsigned long n` accumulator: `n += sample(d)` adds
in `double` and converts back, truncating the fraction. -/
def truncAdd (n : ℕ) (q : ℚ) : ℕ := (Int.floor ((n : ℚ) + q)).toNat

/-- One iteration of the `log_likelihood` loop body on the accumulator `(n, l)`
for the pair `(log_beta d, sample d)`. -/
def llStep (lnGamma : ℚ → ℚ) (acc : ℕ × RVal) (p : RVal × ℚ) : ℕ × RVal :=
  (truncAdd acc.1 p.2,
   RVal.add (RVal.add acc.2 (RVal.neg (RVal.fin (lnGamma (p.2 + 1)))))
     (RVal.mul p.1 (RVal.fin p.2)))

/-- `Multinomial::log_likelihood`: assert the sample length equals `D` (else the
`UTEXAS_ASSERT` signals), then loop `d = D-1 .. 0` accumulating `n` and `l`, and
return `l + ln_gamma(n + 1)`. -/
def log_likelihood (lnGamma : ℚ → ℚ) (m : Multinomial) (sample : List ℚ) :
    Except MError RVal :=
  let D := m.beta.length
  if sample.length = D then
    let p := ((m.log_beta.zip sample).reverse).foldl (llStep lnGamma) (0, RVal.fin 0)
    Except.ok (RVal.add p.2 (RVal.fin (lnGamma ((p.1 : ℚ) + 1))))
  else
    Except.error MError.DimensionMismatchError

/-- Modelled from the spec: `scipy.random.multinomial(N, beta)` is an external
library call (not part of this repository).  Per its contract a draw of `N` trials
lands each trial in one category; the injected `pick` function supplies the random
category choices (`pick i % D` is trial `i`'s category), and the result counts the
trials per category. -/
def multinomialDraw (pick : ℕ → ℕ) (N D : ℕ) : List ℕ :=
  (List.range D).map (fun j => ((List.range N).filter (fun i => pick i % D = j)).length)

/-- `Multinomial::variate(size_t N)`: delegates to `scipy.random.multinomial`. -/
def variate (m : Multinomial) (pick : ℕ → ℕ) (N : ℕ) : List ℕ :=
  multinomialDraw pick N m.beta.length

/-- `Multinomial::variate()`: returns `variate(1)`. -/
def variate0 (m : Multinomial) (pick : ℕ → ℕ) : List ℕ :=
  variate m pick 1

/-- Indices (in increasing order, starting at `i`) of the nonzero entries of a
count vector. -/
def nonzeroIndicesFrom (i : ℕ) : List ℕ → List ℕ
  | [] => []
  | x :: t => if x ≠ 0 then i :: nonzeroIndicesFrom (i + 1) t else nonzeroIndicesFrom (i + 1) t

/-- Modelled from the spec: locate the unique index of a one-hot draw whose entry is
nonzero; if zero or more than one entries are nonzero, signal
`InternalConsistencyError`. -/
def indicatorFromSample (s : List ℕ) : Except MError ℕ :=
  match nonzeroIndicesFrom 0 s with
  | [i] => Except.ok i
  | _ => Except.error MError.InternalConsistencyError

/-- Modelled from the spec: `Multinomial::indicator()` is an unimplemented `FIXME`
stub in the source; the spec fixes its contract as drawing a single-trial sample
(equivalent to `variate(1)`) and returning the index of its sole nonzero entry. -/
def indicator (m : Multinomial) (pick : ℕ → ℕ) : Except MError ℕ :=
  indicatorFromSample (variate m pick 1)

/-- `Multinomial::get_beta()`. -/
def get_beta (m : Multinomial) : List RVal := m.beta

/-- `Multinomial::get_log_beta()`. -/
def get_log_beta (m : Multinomial) : List RVal := m.log_beta

/-- State-threaded `variate`: the method body contains no assignment to a member,
so the state it returns is the state it was given. -/
def variateSt (m : Multinomial) (pick : ℕ → ℕ) (N : ℕ) : List ℕ × Multinomial :=
  (variate m pick N, m)

/-- State-threaded `indicator` (no member assignment in the body). -/
def indicatorSt (m : Multinomial) (pick : ℕ → ℕ) : Except MError ℕ × Multinomial :=
  (indicator m pick, m)

/-- State-threaded `log_likelihood` (the method is not `const` in the source, but
its body assigns only to the locals `n`, `l` and `D`, never to a member). -/
def log_likelihoodSt (lnGamma : ℚ → ℚ) (m : Multinomial) (sample : List ℚ) :
    Except MError RVal × Multinomial :=
  (log_likelihood lnGamma m sample, m)

/-- State-threaded `get_beta` (a `const` accessor). -/
def get_betaSt (m : Multinomial) : List RVal × Multinomial :=
  (get_beta m, m)

/-- State-threaded `get_log_beta` (a `const` accessor). -/
def get_log_betaSt (m : Multinomial) : List RVal × Multinomial :=
  (get_log_beta m, m)

/-- The finite values of the constructed `_log_beta` vector, as rationals. -/
def logBetaQ (logPos : ℚ → ℚ) (raw : List ℚ) : List ℚ :=
  (raw.map (fun x => divD x raw.sum)).map (fun v => nan_to_numQ (npLog logPos v))

theorem truncAdd_of_nonneg (n : ℕ) (q : ℚ) (hq : 0 ≤ q) :
    truncAdd n q = n + (Int.floor q).toNat := by
  unfold truncAdd
  rw [Int.floor_nat_add]
  have h0 : 0 ≤ Int.floor q := Int.floor_nonneg.mpr hq
  omega

theorem RVal.add_fin (a b : ℚ) : RVal.add (RVal.fin a) (RVal.fin b) = RVal.fin (a + b) := rfl

theorem RVal.neg_fin (a : ℚ) : RVal.neg (RVal.fin a) = RVal.fin (-a) := rfl

theorem RVal.mul_fin (a b : ℚ) : RVal.mul (RVal.fin a) (RVal.fin b) = RVal.fin (a * b) := rfl

theorem llStep_fin (lnGamma : ℚ → ℚ) (n : ℕ) (l : ℚ) (b s : ℚ) :
    llStep lnGamma (n, RVal.fin l) (RVal.fin b, s)
      = (truncAdd n s, RVal.fin (l - lnGamma (s + 1) + b * s)) := by
  have h : l + -lnGamma (s + 1) + b * s = l - lnGamma (s + 1) + b * s := by ring
  simp only [llStep, RVal.neg_fin, RVal.add_fin, RVal.mul_fin]
  rw [h]

theorem llLoop_char (lnGamma : ℚ → ℚ) (ps : List (ℚ × ℚ))
    (h : ∀ p ∈ ps, 0 ≤ p.2) (n0 : ℕ) (l0 : ℚ) :
    (ps.map (fun p => (RVal.fin p.1, p.2))).foldl (llStep lnGamma) (n0, RVal.fin l0)
      = (n0 + (ps.map (fun p => (Int.floor p.2).toNat)).sum,
         RVal.fin (l0 + (ps.map (fun p => p.1 * p.2 - lnGamma (p.2 + 1))).sum)) := by
  induction ps generalizing n0 l0 with
  | nil => simp
  | cons p t ih =>
    have hp : 0 ≤ p.2 := h p (List.mem_cons_self p t)
    have ht : ∀ q ∈ t, 0 ≤ q.2 := fun q hq => h q (List.mem_cons_of_mem p hq)
    simp only [List.map_cons, List.foldl_cons, llStep_fin, truncAdd_of_nonneg _ _ hp,
      List.sum_cons]
    rw [ih ht]
    simp only [Prod.mk.injEq, RVal.fin.injEq]
    exact ⟨by omega, by ring⟩

theorem llLoop_all_fin (lnGamma : ℚ → ℚ) (ps : List (RVal × ℚ))
    (h : ∀ p ∈ ps, ∃ b, p.1 = RVal.fin b) (n0 : ℕ) (l0 : ℚ) :
    ∃ n q, ps.foldl (llStep lnGamma) (n0, RVal.fin l0) = (n, RVal.fin q) := by
  induction ps generalizing n0 l0 with
  | nil => exact ⟨n0, l0, rfl⟩
  | cons p t ih =>
    obtain ⟨b, hb⟩ := h p (List.mem_cons_self p t)
    have ht : ∀ q ∈ t, ∃ b, q.1 = RVal.fin b := fun q hq => h q (List.mem_cons_of_mem p hq)
    obtain ⟨p1, p2⟩ := p
    simp only at hb
    subst hb
    simpa only [List.foldl_cons, llStep_fin] using
      ih ht (truncAdd n0 p2) (l0 - lnGamma (p2 + 1) + b * p2)

theorem construct_beta (logPos : ℚ → ℚ) (raw : List ℚ) :
    (construct logPos raw).beta = raw.map (fun x => divD x raw.sum) := rfl

theorem construct_beta_length (logPos : ℚ → ℚ) (raw : List ℚ) :
    (construct logPos raw).beta.length = raw.length := by
  simp [construct]

theorem construct_log_beta (logPos : ℚ → ℚ) (raw : List ℚ) :
    (construct logPos raw).log_beta = (logBetaQ logPos raw).map RVal.fin := by
  simp [construct, logBetaQ, nan_to_num, List.map_map]

theorem logBetaQ_length (logPos : ℚ → ℚ) (raw : List ℚ) :
    (logBetaQ logPos raw).length = raw.length := by
  simp [logBetaQ]

theorem sum_map_sub (l : List α) (g h : α → ℚ) :
    (l.map (fun x => g x - h x)).sum = (l.map g).sum - (l.map h).sum := by
  induction l with
  | nil => simp
  | cons a t ih => simp only [List.map_cons, List.sum_cons, ih]; ring

theorem sum_map_add_nat (l : List α) (g h : α → ℕ) :
    (l.map (fun x => g x + h x)).sum = (l.map g).sum + (l.map h).sum := by
  induction l with
  | nil => simp
  | cons a t ih => simp only [List.map_cons, List.sum_cons, ih]; omega

theorem log_likelihood_char (lnGamma : ℚ → ℚ) (m : Multinomial) (lbs : List ℚ)
    (sample : List ℚ) (hlb : m.log_beta = lbs.map RVal.fin)
    (hlen : sample.length = m.beta.length) (hlen2 : lbs.length = m.beta.length)
    (hnn : ∀ s ∈ sample, 0 ≤ s) :
    log_likelihood lnGamma m sample =
      Except.ok (RVal.fin
        (((lbs.zip sample).map (fun p => p.1 * p.2 - lnGamma (p.2 + 1))).sum
          + lnGamma (((sample.map (fun s => (Int.floor s).toNat)).sum : ℚ) + 1))) := by
  unfold log_likelihood
  rw [if_pos hlen, hlb, List.zip_map_left]
  have hmap : List.map (Prod.map RVal.fin id) (lbs.zip sample)
      = (lbs.zip sample).map (fun p => (RVal.fin p.1, p.2)) := by
    apply List.map_congr_left
    intro p _
    cases p
    rfl
  rw [hmap, ← List.map_reverse]
  have hrev : ∀ p ∈ (lbs.zip sample).reverse, 0 ≤ p.2 := by
    intro p hp
    rw [List.mem_reverse] at hp
    obtain ⟨p1, p2⟩ := p
    exact hnn _ (List.of_mem_zip hp).2
  rw [llLoop_char lnGamma _ hrev 0 0]
  have hsnd : (lbs.zip sample).map Prod.snd = sample :=
    List.map_snd_zip lbs sample (by omega)
  have hn : (((lbs.zip sample).reverse.map (fun p => (Int.floor p.2).toNat)).sum : ℕ)
      = (sample.map (fun s => (Int.floor s).toNat)).sum := by
    rw [List.map_reverse, List.sum_reverse]
    have : (lbs.zip sample).map (fun p => (Int.floor p.2).toNat)
        = ((lbs.zip sample).map Prod.snd).map (fun s => (Int.floor s).toNat) := by
      rw [List.map_map]
      rfl
    rw [this, hsnd]
  have hl : (((lbs.zip sample).reverse.map
        (fun p => p.1 * p.2 - lnGamma (p.2 + 1))).sum : ℚ)
      = ((lbs.zip sample).map (fun p => p.1 * p.2 - lnGamma (p.2 + 1))).sum := by
    rw [List.map_reverse, List.sum_reverse]
  rw [hn, hl]
  simp only [Nat.cast_id, zero_add, RVal.add]

theorem indicator_sum_range (D k : ℕ) (h : k < D) :
    ((List.range D).map (fun j => if k = j then 1 else 0)).sum = 1 := by
  induction D with
  | zero => omega
  | succ D ih =>
    rw [List.range_succ, List.map_append, List.sum_append]
    by_cases hk : k = D
    · subst hk
      have h0 : ((List.range k).map (fun j => if k = j then 1 else 0)).sum = 0 := by
        apply List.sum_eq_zero
        intro x hx
        obtain ⟨j, hj, hxj⟩ := List.mem_map.mp hx
        rw [List.mem_range] at hj
        rw [if_neg (by omega)] at hxj
        omega
      simp [h0]
    · have hkD : k < D := by omega
      rw [ih hkD]
      simp [hk]

theorem count_partition (f : α → ℕ) (D : ℕ) (l : List α) (h : ∀ a ∈ l, f a < D) :
    ((List.range D).map (fun j => (l.filter (fun a => f a = j)).length)).sum
      = l.length := by
  induction l with
  | nil => simp
  | cons a t ih =>
    have ht : ∀ x ∈ t, f x < D := fun x hx => h x (List.mem_cons_of_mem a hx)
    have hstep : (fun j : ℕ => ((a :: t).filter (fun x => f x = j)).length)
        = fun j : ℕ => (if f a = j then 1 else 0) + (t.filter (fun x => f x = j)).length := by
      funext j
      by_cases hj : f a = j
      · simp only [List.filter_cons, hj]
        simp
        omega
      · simp [List.filter_cons, hj]
    rw [hstep, sum_map_add_nat, indicator_sum_range D (f a) (h a (List.mem_cons_self a t)),
      ih ht, List.length_cons]
    omega

theorem variate_length (m : Multinomial) (pick : ℕ → ℕ) (N : ℕ) :
    (variate m pick N).length = m.beta.length := by
  simp [variate, multinomialDraw]

theorem variate_sum (m : Multinomial) (pick : ℕ → ℕ) (N : ℕ)
    (hD : 0 < m.beta.length) : (variate m pick N).sum = N := by
  unfold variate multinomialDraw
  rw [count_partition (fun i => pick i % m.beta.length) m.beta.length (List.range N)
    (fun a _ => Nat.mod_lt _ hD)]
  exact List.length_range N

theorem variate_zero (m : Multinomial) (pick : ℕ → ℕ) :
    variate m pick 0 = List.replicate m.beta.length 0 := by
  rw [List.eq_replicate_iff]
  constructor
  · exact variate_length m pick 0
  · intro b hb
    obtain ⟨j, _, hj⟩ := List.mem_map.mp hb
    simp [List.range_zero] at hj
    omega

theorem filter_ne_zero_of_sum_eq_zero (l : List ℕ) (h : l.sum = 0) :
    l.filter (fun x => x ≠ 0) = [] := by
  rw [List.filter_eq_nil_iff]
  intro a ha
  have := (List.sum_eq_zero_iff.mp h) a ha
  simp [this]

theorem filter_ne_zero_of_sum_eq_one (l : List ℕ) (h : l.sum = 1) :
    l.filter (fun x => x ≠ 0) = [1] := by
  induction l with
  | nil => simp at h
  | cons a t ih =>
    rw [List.sum_cons] at h
    cases a with
    | zero =>
      rw [List.filter_cons]
      simpa using ih (by omega)
    | succ n =>
      have ha : n = 0 := by omega
      have ht : t.sum = 0 := by omega
      subst ha
      have hft := filter_ne_zero_of_sum_eq_zero t ht
      rw [List.filter_cons, hft]
      simp

theorem variate_one_filter (m : Multinomial) (pick : ℕ → ℕ)
    (hD : 0 < m.beta.length) :
    (variate m pick 1).filter (fun x => x ≠ 0) = [1] :=
  filter_ne_zero_of_sum_eq_one _ (variate_sum m pick 1 hD)

theorem nonzeroIndicesFrom_length (s : List ℕ) :
    ∀ i : ℕ, (nonzeroIndicesFrom i s).length = (s.filter (fun x => x ≠ 0)).length := by
  induction s with
  | nil => intro i; rfl
  | cons x t ih =>
    intro i
    by_cases hx : x = 0 <;> simp [nonzeroIndicesFrom, List.filter_cons, hx, ih]

theorem nonzeroIndicesFrom_mem (s : List ℕ) :
    ∀ i : ℕ, ∀ j ∈ nonzeroIndicesFrom i s,
      i ≤ j ∧ j - i < s.length ∧ s.getD (j - i) 0 ≠ 0 := by
  induction s with
  | nil => intro i j hj; simp [nonzeroIndicesFrom] at hj
  | cons x t ih =>
    intro i j hj
    by_cases hx : x = 0
    · simp only [nonzeroIndicesFrom, hx, ne_eq, not_true_eq_false, if_false] at hj
      obtain ⟨h1, h2, h3⟩ := ih (i + 1) j hj
      refine ⟨by omega, by simp [List.length_cons]; omega, ?_⟩
      have hsub : j - i = (j - (i + 1)) + 1 := by omega
      rw [hsub, List.getD_cons_succ]
      exact h3
    · simp only [nonzeroIndicesFrom, hx, ne_eq, not_false_eq_true, if_true,
        List.mem_cons] at hj
      rcases hj with hj | hj
      · subst hj
        refine ⟨le_refl j, by simp, ?_⟩
        rw [Nat.sub_self, List.getD_cons_zero]
        exact hx
      · obtain ⟨h1, h2, h3⟩ := ih (i + 1) j hj
        refine ⟨by omega, by simp [List.length_cons]; omega, ?_⟩
        have hsub : j - i = (j - (i + 1)) + 1 := by omega
        rw [hsub, List.getD_cons_succ]
        exact h3

theorem indicatorFromSample_of_one_hot (s : List ℕ)
    (h : s.filter (fun x => x ≠ 0) = [1]) :
    ∃ i, indicatorFromSample s = Except.ok i ∧ i < s.length ∧ s.getD i 0 ≠ 0 := by
  have hlen : (nonzeroIndicesFrom 0 s).length = 1 := by
    rw [nonzeroIndicesFrom_length s 0, h]
    rfl
  obtain ⟨i, hi⟩ := List.length_eq_one.mp hlen
  have hmem := nonzeroIndicesFrom_mem s 0 i (by rw [hi]; exact List.mem_singleton_self i)
  refine ⟨i, ?_, ?_, ?_⟩
  · unfold indicatorFromSample
    rw [hi]
  · omega
  · simpa using hmem.2.2

theorem indicatorFromSample_degenerate (s : List ℕ)
    (h : (s.filter (fun x => x ≠ 0)).length ≠ 1) :
    indicatorFromSample s = Except.error MError.InternalConsistencyError := by
  have hlen : (nonzeroIndicesFrom 0 s).length ≠ 1 := by
    rw [nonzeroIndicesFrom_length s 0]
    exact h
  unfold indicatorFromSample
  cases hnz : nonzeroIndicesFrom 0 s with
  | nil => rfl
  | cons a t =>
    cases t with
    | nil => rw [hnz] at hlen; simp at hlen
    | cons b u => rfl

theorem sum_map_pair_sub (lnGamma : ℚ → ℚ) (l : List (ℚ × ℚ)) :
    (l.map (fun p => p.1 * p.2 - lnGamma (p.2 + 1))).sum
      = (l.map (fun p => p.1 * p.2)).sum - (l.map (fun p => lnGamma (p.2 + 1))).sum := by
  induction l with
  | nil => simp
  | cons a t ih => simp only [List.map_cons, List.sum_cons, ih]; ring

theorem zip_map_snd_fun (lbs sample : List ℚ) (h : ℚ → ℚ)
    (hlen : sample.length ≤ lbs.length) :
    (lbs.zip sample).map (fun p => h p.2) = sample.map h := by
  have h1 : (lbs.zip sample).map (fun p => h p.2)
      = ((lbs.zip sample).map Prod.snd).map h := by
    rw [List.map_map]
    rfl
  rw [h1, List.map_snd_zip lbs sample hlen]

theorem ll_formula (lnGamma logPos : ℚ → ℚ) (raw sample : List ℚ)
    (hlen : sample.length = raw.length) (hnn : ∀ s ∈ sample, 0 ≤ s) :
    log_likelihood lnGamma (construct logPos raw) sample
      = Except.ok (RVal.fin
          (lnGamma (((sample.map (fun s => (Int.floor s).toNat)).sum : ℚ) + 1)
            - (sample.map (fun s => lnGamma (s + 1))).sum
            + (((logBetaQ logPos raw).zip sample).map (fun p => p.1 * p.2)).sum)) := by
  rw [log_likelihood_char lnGamma (construct logPos raw) (logBetaQ logPos raw) sample
      (construct_log_beta logPos raw)
      (by rw [construct_beta_length]; exact hlen)
      (by rw [construct_beta_length]; exact logBetaQ_length logPos raw)
      hnn]
  have hg : ((logBetaQ logPos raw).zip sample).map (fun p => lnGamma (p.2 + 1))
      = sample.map (fun s => lnGamma (s + 1)) :=
    zip_map_snd_fun _ _ (fun s => lnGamma (s + 1))
      (by rw [logBetaQ_length]; omega)
  have hq : (((logBetaQ logPos raw).zip sample).map
        (fun p => p.1 * p.2 - lnGamma (p.2 + 1))).sum
        + lnGamma (((sample.map (fun s => (Int.floor s).toNat)).sum : ℚ) + 1)
      = lnGamma (((sample.map (fun s => (Int.floor s).toNat)).sum : ℚ) + 1)
        - (sample.map (fun s => lnGamma (s + 1))).sum
        + (((logBetaQ logPos raw).zip sample).map (fun p => p.1 * p.2)).sum := by
    rw [sum_map_pair_sub, hg]
    ring
  exact congrArg (fun q => (Except.ok (RVal.fin q) : Except MError RVal)) hq

/-- C10: in `log_likelihood`, the total trial count `n` is accumulated in an
`unsigned long`, so each entry of the sample is truncated to an integer when added
to `n`; for fractional entries the `lgamma(n + 1)` term uses the sum of the
truncated entries while the per-entry `lgamma(sample d + 1)` and
`sample d * log_beta d` terms use the exact fractional values. -/
theorem C10_trial_count_truncation (lnGamma logPos : ℚ → ℚ) (raw sample : List ℚ)
    (hlen : sample.length = raw.length) (hnn : ∀ s ∈ sample, 0 ≤ s) :
    log_likelihood lnGamma (construct logPos raw) sample
      = Except.ok (RVal.fin
          (lnGamma (((sample.map (fun s => (Int.floor s).toNat)).sum : ℚ) + 1)
            - (sample.map (fun s => lnGamma (s + 1))).sum
            + (((logBetaQ logPos raw).zip sample).map (fun p => p.1 * p.2)).sum)) :=
  ll_formula lnGamma logPos raw sample hlen hnn

theorem C10_trial_count_truncation_witness :
    ((([(3:ℚ)/2, 2]).length = ([(1:ℚ), 1]).length) ∧ (∀ s ∈ [(3:ℚ)/2, 2], 0 ≤ s))
    ∧ log_likelihood (fun _ => (7:ℚ)) (construct (fun _ => (5:ℚ)) [(1:ℚ), 1]) [(3:ℚ)/2, 2]
      = Except.ok (RVal.fin
          (((fun _ => (7:ℚ)) ((((([(3:ℚ)/2, 2]).map (fun s => (Int.floor s).toNat)).sum : ℕ) : ℚ) + 1))
            - (([(3:ℚ)/2, 2]).map (fun s => (fun _ => (7:ℚ)) (s + 1))).sum
            + (((logBetaQ (fun _ => (5:ℚ)) [(1:ℚ), 1]).zip [(3:ℚ)/2, 2]).map
                (fun p => p.1 * p.2)).sum)) :=
  ⟨⟨rfl, by norm_num [List.forall_mem_cons]⟩,
    C10_trial_count_truncation (fun _ => (7:ℚ)) (fun _ => (5:ℚ)) [(1:ℚ), 1] [(3:ℚ)/2, 2]
      rfl (by norm_num [List.forall_mem_cons])⟩

theorem map_cast_floor_toNat (ks : List ℕ) :
    (ks.map (fun (k : ℕ) => (k : ℚ))).map (fun s => (Int.floor s).toNat) = ks := by
  rw [List.map_map]
  have h : ((fun s : ℚ => (Int.floor s).toNat) ∘ fun (k : ℕ) => (k : ℚ))
      = fun k : ℕ => k := by
    funext k
    simp [Function.comp, Int.floor_natCast]
  rw [h]
  simp

theorem map_cast_lnGamma (lnGamma : ℚ → ℚ) (ks : List ℕ) :
    (ks.map (fun (k : ℕ) => (k : ℚ))).map (fun s => lnGamma (s + 1))
      = ks.map (fun (k : ℕ) => lnGamma ((k : ℚ) + 1)) := by
  rw [List.map_map]
  rfl

/-- C1: for every distribution and every count-vector sample of length `D`,
`log_likelihood` returns
`lgamma(n + 1) - Σ_d lgamma(sample d + 1) + Σ_d sample d * log_beta d`,
where `n` is the sum of the entries of the sample itself, recomputed from the
sample (the sample here is integer-valued, as the spec's data model defines a
sample; claim C10 covers fractional entries). -/
theorem C1_log_likelihood_formula (lnGamma logPos : ℚ → ℚ) (raw : List ℚ)
    (ks : List ℕ) (hlen : ks.length = raw.length) :
    log_likelihood lnGamma (construct logPos raw) (ks.map (fun (k : ℕ) => (k : ℚ)))
      = Except.ok (RVal.fin
          (lnGamma ((ks.sum : ℚ) + 1)
            - (ks.map (fun (k : ℕ) => lnGamma ((k : ℚ) + 1))).sum
            + (((logBetaQ logPos raw).zip (ks.map (fun (k : ℕ) => (k : ℚ)))).map
                (fun p => p.1 * p.2)).sum)) := by
  rw [ll_formula lnGamma logPos raw (ks.map (fun (k : ℕ) => (k : ℚ)))
      (by rw [List.length_map]; exact hlen)
      (by intro s hs
          obtain ⟨k, _, hk⟩ := List.mem_map.mp hs
          rw [← hk]
          exact Nat.cast_nonneg k),
    map_cast_floor_toNat, map_cast_lnGamma]

theorem C1_log_likelihood_formula_witness :
    (([3, 2] : List ℕ).length = ([(1:ℚ)/2, 1/2]).length)
    ∧ log_likelihood (fun _ => (7:ℚ)) (construct (fun _ => (5:ℚ)) [(1:ℚ)/2, 1/2])
        (([3, 2] : List ℕ).map (fun (k : ℕ) => (k : ℚ)))
      = Except.ok (RVal.fin
          ((fun _ => (7:ℚ)) (((([3, 2] : List ℕ).sum : ℕ) : ℚ) + 1)
            - (([3, 2] : List ℕ).map (fun (k : ℕ) => (fun _ => (7:ℚ)) ((k : ℚ) + 1))).sum
            + (((logBetaQ (fun _ => (5:ℚ)) [(1:ℚ)/2, 1/2]).zip
                  (([3, 2] : List ℕ).map (fun (k : ℕ) => (k : ℚ)))).map
                (fun p => p.1 * p.2)).sum)) :=
  ⟨rfl, C1_log_likelihood_formula (fun _ => (7:ℚ)) (fun _ => (5:ℚ)) [(1:ℚ)/2, 1/2]
    [3, 2] rfl⟩

/-- C2 (amended): when some `sample d > 0` while `beta d = 0`, `log_likelihood` does
NOT return negative infinity: `nan_to_num` clamps `log 0 = -inf` to the finite value
`-DBL_MAX`, so that entry contributes `sample d * -DBL_MAX` and the result is the
finite value given by the formula.  For every constructed distribution and every
matching-length sample the result is a finite value (`RVal.fin`), never NaN and
never an infinity (in the exact-arithmetic model). -/
theorem C2_always_finite (lnGamma logPos : ℚ → ℚ) (raw sample : List ℚ)
    (hlen : sample.length = raw.length) :
    ∃ q : ℚ, log_likelihood lnGamma (construct logPos raw) sample
      = Except.ok (RVal.fin q) := by
  have hfin : ∀ p ∈ ((construct logPos raw).log_beta.zip sample).reverse,
      ∃ b, p.1 = RVal.fin b := by
    intro p hp
    rw [List.mem_reverse] at hp
    have h1 := (List.of_mem_zip hp).1
    rw [construct_log_beta] at h1
    obtain ⟨b, _, hb⟩ := List.mem_map.mp h1
    exact ⟨b, hb.symm⟩
  obtain ⟨n, q, hq⟩ := llLoop_all_fin lnGamma _ hfin 0 0
  refine ⟨q + lnGamma ((n : ℚ) + 1), ?_⟩
  unfold log_likelihood
  rw [if_pos (by rw [construct_beta_length]; exact hlen), hq]
  rfl

theorem C2_always_finite_witness :
    (([(0:ℚ), 1]).length = ([(1:ℚ), 0]).length)
    ∧ ∃ q : ℚ, log_likelihood (fun _ => (0:ℚ)) (construct (fun _ => (0:ℚ)) [(1:ℚ), 0])
        [(0:ℚ), 1] = Except.ok (RVal.fin q) :=
  ⟨rfl, C2_always_finite (fun _ => (0:ℚ)) (fun _ => (0:ℚ)) [(1:ℚ), 0] [(0:ℚ), 1] rfl⟩

theorem C2_neg_infinity_counterexample :
    log_likelihood (fun _ => (0:ℚ)) (construct (fun _ => (0:ℚ)) [(1:ℚ), 0]) [(0:ℚ), 1]
      = Except.ok (RVal.fin (-DBL_MAX))
    ∧ Except.ok (RVal.fin (-DBL_MAX)) ≠ (Except.ok RVal.ninf : Except MError RVal) := by
  constructor
  · norm_num [log_likelihood, construct, divD, npLog, nan_to_num, nan_to_numQ,
      llStep, truncAdd, RVal.add, RVal.neg, RVal.mul, List.zip, List.zipWith]
  · intro h
    exact RVal.noConfusion (Except.ok.inj h)

/-- C3 (amended): after construction, for every index `d` with `beta d = 0`, the
cached `log_beta d` is the finite clamp `-DBL_MAX` (what `numpy.nan_to_num` makes
of `log 0 = -inf`), not `0`; for `beta d = q > 0`, `log_beta d` is the natural log
of `q`. -/
theorem C3_log_beta_clamp (logPos : ℚ → ℚ) (raw : List ℚ) (d : ℕ) :
    ((construct logPos raw).beta.getD d RVal.nan = RVal.fin 0 →
      (construct logPos raw).log_beta.getD d RVal.nan = RVal.fin (-DBL_MAX))
    ∧ ∀ q : ℚ, 0 < q → (construct logPos raw).beta.getD d RVal.nan = RVal.fin q →
      (construct logPos raw).log_beta.getD d RVal.nan = RVal.fin (logPos q) := by
  have hlb : (construct logPos raw).log_beta
      = (construct logPos raw).beta.map (fun v => nan_to_num (npLog logPos v)) := rfl
  have key : ∀ v : RVal, (construct logPos raw).beta.getD d RVal.nan = v →
      v ≠ RVal.nan →
      (construct logPos raw).log_beta.getD d RVal.nan
        = nan_to_num (npLog logPos v) := by
    intro v hv hne
    rw [hlb, List.getD_eq_getElem?_getD, List.getElem?_map]
    rw [List.getD_eq_getElem?_getD] at hv
    cases hg : (construct logPos raw).beta[d]? with
    | none =>
      rw [hg] at hv
      simp only [Option.getD_none] at hv
      exact absurd hv.symm hne
    | some w =>
      rw [hg] at hv
      simp only [Option.getD_some] at hv
      subst hv
      simp
  constructor
  · intro h0
    rw [key (RVal.fin 0) h0 (by simp)]
    norm_num [npLog, nan_to_num, nan_to_numQ]
  · intro q hq hqv
    rw [key (RVal.fin q) hqv (by simp)]
    simp [npLog, nan_to_num, nan_to_numQ, hq]

theorem C3_log_beta_clamp_witness :
    (construct (fun _ => (5:ℚ)) [(1:ℚ), 0]).log_beta.getD 1 RVal.nan
      = RVal.fin (-DBL_MAX)
    ∧ (construct (fun _ => (5:ℚ)) [(1:ℚ), 0]).log_beta.getD 0 RVal.nan
      = RVal.fin ((fun _ => (5:ℚ)) 1) :=
  ⟨(C3_log_beta_clamp (fun _ => (5:ℚ)) [(1:ℚ), 0] 1).1 (by norm_num [construct, divD]),
   (C3_log_beta_clamp (fun _ => (5:ℚ)) [(1:ℚ), 0] 0).2 1 one_pos
     (by norm_num [construct, divD])⟩

theorem C3_zero_log_counterexample :
    (construct (fun _ => (0:ℚ)) [(1:ℚ), 0]).beta.getD 1 RVal.nan = RVal.fin 0
    ∧ (construct (fun _ => (0:ℚ)) [(1:ℚ), 0]).log_beta.getD 1 RVal.nan ≠ RVal.fin 0 := by
  constructor
  · norm_num [construct, divD]
  · norm_num [construct, divD, npLog, nan_to_num, nan_to_numQ, DBL_MAX]

/-- C4: for every raw parameter vector of non-negative entries with strictly
positive sum, the constructed `beta` is that vector divided by its own sum, and
the normalized entries sum to 1. -/
theorem C4_normalization (logPos : ℚ → ℚ) (raw : List ℚ)
    (hnn : ∀ x ∈ raw, 0 ≤ x) (hpos : 0 < raw.sum) :
    (construct logPos raw).beta = raw.map (fun x => RVal.fin (x / raw.sum))
    ∧ (raw.map (fun x => x / raw.sum)).sum = 1 := by
  constructor
  · rw [construct_beta]
    apply List.map_congr_left
    intro x _
    simp only [divD, if_neg hpos.ne']
  · have h1 : (raw.map (fun x => x / raw.sum)).sum = raw.sum * (raw.sum)⁻¹ := by
      simp only [div_eq_mul_inv]
      rw [List.sum_map_mul_right]
      simp
    rw [h1, mul_inv_cancel₀ hpos.ne']

theorem C4_normalization_witness :
    ((∀ x ∈ [(1:ℚ), 3], 0 ≤ x) ∧ 0 < ([(1:ℚ), 3]).sum)
    ∧ (construct (fun _ => (5:ℚ)) [(1:ℚ), 3]).beta
        = [(1:ℚ), 3].map (fun x => RVal.fin (x / ([(1:ℚ), 3]).sum))
    ∧ ([(1:ℚ), 3].map (fun x => x / ([(1:ℚ), 3]).sum)).sum = 1 :=
  ⟨⟨by norm_num [List.forall_mem_cons], by norm_num⟩,
    C4_normalization (fun _ => (5:ℚ)) [(1:ℚ), 3]
      (by norm_num [List.forall_mem_cons]) (by norm_num)⟩

/-- C5 (amended): the constructor never signals: for every raw vector, including
vectors with negative entries or zero sum, construction succeeds without error;
when the sum is zero the IEEE division makes each beta entry NaN (zero raw entry)
or an infinity (nonzero raw entry) instead of an error being raised. -/
theorem C5_no_validation (logPos : ℚ → ℚ) (raw : List ℚ) :
    constructE logPos raw = Except.ok (construct logPos raw)
    ∧ (raw.sum = 0 →
        (construct logPos raw).beta
          = raw.map (fun x =>
              if x = 0 then RVal.nan else if 0 < x then RVal.pinf else RVal.ninf)) := by
  refine ⟨rfl, ?_⟩
  intro h0
  rw [construct_beta]
  apply List.map_congr_left
  intro x _
  rw [h0]
  simp [divD]

theorem C5_no_validation_witness :
    constructE (fun _ => (0:ℚ)) [(1:ℚ), -1]
      = Except.ok (construct (fun _ => (0:ℚ)) [(1:ℚ), -1])
    ∧ ([(1:ℚ), -1]).sum = 0
    ∧ (construct (fun _ => (0:ℚ)) [(1:ℚ), -1]).beta
        = [(1:ℚ), -1].map (fun x =>
            if x = 0 then RVal.nan else if 0 < x then RVal.pinf else RVal.ninf) :=
  ⟨(C5_no_validation (fun _ => (0:ℚ)) [(1:ℚ), -1]).1, by norm_num,
    (C5_no_validation (fun _ => (0:ℚ)) [(1:ℚ), -1]).2 (by norm_num)⟩

theorem C5_zero_sum_counterexample :
    constructE (fun _ => (0:ℚ)) [(0:ℚ), 0]
      = Except.ok
          { beta := [RVal.nan, RVal.nan], log_beta := [RVal.fin 0, RVal.fin 0] }
    ∧ constructE (fun _ => (0:ℚ)) [(0:ℚ), 0]
        ≠ Except.error MError.InvalidParameterError := by
  constructor
  · norm_num [constructE, construct, divD, npLog, nan_to_num, nan_to_numQ]
  · intro h
    exact Except.noConfusion h

/-- C6: `log_likelihood` signals `DimensionMismatchError` (the `UTEXAS_ASSERT`)
for every sample whose length differs from the distribution's `D`; no partial
result accompanies the error and the distribution's state is unchanged. -/
theorem C6_dimension_mismatch (lnGamma : ℚ → ℚ) (m : Multinomial) (sample : List ℚ)
    (h : sample.length ≠ m.beta.length) :
    log_likelihood lnGamma m sample = Except.error MError.DimensionMismatchError
    ∧ log_likelihoodSt lnGamma m sample
        = (Except.error MError.DimensionMismatchError, m) := by
  have h1 : log_likelihood lnGamma m sample
      = Except.error MError.DimensionMismatchError := by
    unfold log_likelihood
    rw [if_neg h]
  exact ⟨h1, by rw [log_likelihoodSt, h1]⟩

theorem C6_dimension_mismatch_witness :
    (([(1:ℚ)]).length ≠ (construct (fun _ => (0:ℚ)) [(1:ℚ), 1]).beta.length)
    ∧ log_likelihood (fun _ => (0:ℚ)) (construct (fun _ => (0:ℚ)) [(1:ℚ), 1]) [(1:ℚ)]
        = Except.error MError.DimensionMismatchError
    ∧ log_likelihoodSt (fun _ => (0:ℚ)) (construct (fun _ => (0:ℚ)) [(1:ℚ), 1]) [(1:ℚ)]
        = (Except.error MError.DimensionMismatchError,
           construct (fun _ => (0:ℚ)) [(1:ℚ), 1]) :=
  ⟨by simp [construct_beta_length],
    C6_dimension_mismatch (fun _ => (0:ℚ)) (construct (fun _ => (0:ℚ)) [(1:ℚ), 1])
      [(1:ℚ)] (by simp [construct_beta_length])⟩

/-- C7: for every `N ≥ 0`, `variate(N)` returns a count vector of length `D`
whose entries are non-negative integers summing exactly to `N`; for `N = 0` it is
the all-zero vector; the no-argument `variate()` equals `variate(1)`, a one-hot
vector with exactly one entry equal to 1. -/
theorem C7_variate_counts (m : Multinomial) (pick : ℕ → ℕ) (N : ℕ)
    (hD : 0 < m.beta.length) :
    (variate m pick N).length = m.beta.length
    ∧ (variate m pick N).sum = N
    ∧ variate m pick 0 = List.replicate m.beta.length 0
    ∧ variate0 m pick = variate m pick 1
    ∧ (variate m pick 1).filter (fun x => x ≠ 0) = [1] :=
  ⟨variate_length m pick N, variate_sum m pick N hD, variate_zero m pick, rfl,
    variate_one_filter m pick hD⟩

theorem C7_variate_counts_witness :
    0 < (construct (fun _ => (0:ℚ)) [(1:ℚ), 1]).beta.length
    ∧ ((variate (construct (fun _ => (0:ℚ)) [(1:ℚ), 1]) (fun _ => 0) 3).length
          = (construct (fun _ => (0:ℚ)) [(1:ℚ), 1]).beta.length
        ∧ (variate (construct (fun _ => (0:ℚ)) [(1:ℚ), 1]) (fun _ => 0) 3).sum = 3
        ∧ variate (construct (fun _ => (0:ℚ)) [(1:ℚ), 1]) (fun _ => 0) 0
          = List.replicate (construct (fun _ => (0:ℚ)) [(1:ℚ), 1]).beta.length 0
        ∧ variate0 (construct (fun _ => (0:ℚ)) [(1:ℚ), 1]) (fun _ => 0)
          = variate (construct (fun _ => (0:ℚ)) [(1:ℚ), 1]) (fun _ => 0) 1
        ∧ (variate (construct (fun _ => (0:ℚ)) [(1:ℚ), 1]) (fun _ => 0) 1).filter
            (fun x => x ≠ 0) = [1]) :=
  ⟨by simp [construct_beta_length],
    C7_variate_counts (construct (fun _ => (0:ℚ)) [(1:ℚ), 1]) (fun _ => 0) 3
      (by simp [construct_beta_length])⟩

/-- C8: `indicator()` performs a single-trial draw equivalent to `variate(1)` and
returns the index of its sole nonzero entry, an integer in `[0, D)` (always 0 when
`D = 1`); a draw with zero or more than one nonzero entries signals
`InternalConsistencyError` instead of returning an arbitrary index. -/
theorem C8_indicator_index (m : Multinomial) (pick : ℕ → ℕ)
    (hD : 0 < m.beta.length) :
    (∃ i, indicator m pick = Except.ok i ∧ i < m.beta.length
        ∧ (variate m pick 1).getD i 0 ≠ 0)
    ∧ (m.beta.length = 1 → indicator m pick = Except.ok 0)
    ∧ (∀ s : List ℕ, (s.filter (fun x => x ≠ 0)).length ≠ 1 →
        indicatorFromSample s = Except.error MError.InternalConsistencyError) := by
  refine ⟨?_, ?_, fun s hs => indicatorFromSample_degenerate s hs⟩
  · obtain ⟨i, h1, h2, h3⟩ := indicatorFromSample_of_one_hot (variate m pick 1)
      (variate_one_filter m pick hD)
    rw [variate_length] at h2
    exact ⟨i, h1, h2, h3⟩
  · intro h1
    have hv : variate m pick 1 = [1] := by
      unfold variate multinomialDraw
      rw [h1]
      simp [List.range_succ, Nat.mod_one]
    unfold indicator
    rw [hv]
    rfl

theorem C8_indicator_index_witness :
    0 < (construct (fun _ => (0:ℚ)) [(1:ℚ), 1]).beta.length
    ∧ ∃ i, indicator (construct (fun _ => (0:ℚ)) [(1:ℚ), 1]) (fun _ => 1)
          = Except.ok i
        ∧ i < (construct (fun _ => (0:ℚ)) [(1:ℚ), 1]).beta.length
        ∧ (variate (construct (fun _ => (0:ℚ)) [(1:ℚ), 1]) (fun _ => 1) 1).getD i 0
            ≠ 0 :=
  ⟨by simp [construct_beta_length],
    (C8_indicator_index (construct (fun _ => (0:ℚ)) [(1:ℚ), 1]) (fun _ => 1)
      (by simp [construct_beta_length])).1⟩

/-- C9: after construction, every operation (`variate`, `indicator`,
`log_likelihood`, `get_beta`, `get_log_beta`) leaves the member vectors `beta` and
`log_beta` unchanged: no statement in any method body of the source assigns to a
member, so each state-threaded operation returns the state it was given. -/
theorem C9_state_immutable (lnGamma : ℚ → ℚ) (m : Multinomial) (pick : ℕ → ℕ)
    (N : ℕ) (sample : List ℚ) :
    (variateSt m pick N).2 = m ∧ (indicatorSt m pick).2 = m
    ∧ (log_likelihoodSt lnGamma m sample).2 = m
    ∧ (get_betaSt m).2 = m ∧ (get_log_betaSt m).2 = m :=
  ⟨rfl, rfl, rfl, rfl, rfl⟩
